import Mathlib

/-!
Verification of the card-identification core of this repository
(`src/main.py`): the inline index build (`build_index_inline`), the
inline query path (`identify_first_image_inline`), and the persisted
artifacts (`ids.npy`, `id_to_meta.json`, `embeddings.faiss`).

Modelling conventions:
* Machine floats become exact rationals (`ℚ`); the L2 norm of a vector,
  which the Python code obtains from `z.norm(...)`, is passed in as a
  scalar together with the algebraic fact that its square is the sum of
  squares, so everything stays computable.
* A pandas dataframe row of `cards.csv` becomes a `Row`; `pathlib`'s
  `exists()` check becomes the `image_exists` field.
* A Python `dict` (insertion-ordered, last assignment to a key wins)
  becomes an association list with `dictInsert`.
* The FAISS flat inner-product index is an external library; its
  `search` is modelled from the spec (§4.1) as exact dot-product
  top-k with the documented tie-break and error cases.
-/

namespace TCG

/-- One row of `data/catalog/cards.csv` as read by `pd.read_csv` in
`build_index_inline` (fields `id,name,set,number,hp,image_path`), plus
the result of the `img_path.exists()` check. -/
structure Row where
  id : String
  name : String
  setc : String
  number : String
  hp : String
  image_path : String
  image_exists : Bool
deriving DecidableEq, Repr

/-- The per-card metadata record written into `id_to_meta.json`
(`build_index_inline`, the `meta[cid] = {...}` assignment). -/
structure Meta where
  name : String
  setc : String
  number : String
  hp : Option Nat
  image_path : String
deriving DecidableEq, Repr

/-- The metadata value built from a row: `int(row["hp"]) if
str(row.get("hp","")).isdigit() else None` becomes `String.toNat?`,
which succeeds exactly on nonempty all-digit strings. -/
def mkMeta (r : Row) : Meta :=
  { name := r.name, setc := r.setc, number := r.number,
    hp := r.hp.toNat?, image_path := r.image_path }

/-- The three in-memory collections accumulated by `build_index_inline`
(`ids, vecs, meta = [], [], {}`) and then persisted as `ids.npy`, the
FAISS matrix and `id_to_meta.json`. -/
structure Artifacts where
  ids : List String
  vecs : List (List ℚ)
  meta : List (String × Meta)
deriving DecidableEq, Repr

/-- The two `assert`s that can abort `build_index_inline`:
`assert len(df) > 0` and `assert vecs` (the spec groups both under
`EmptyCatalog`). -/
inductive BuildErr where
  | noRows
  | noVectors
deriving DecidableEq, Repr

/-- Python-dict insertion: replace the value at an existing key in
place, otherwise append at the end (`meta[cid] = {...}`). -/
def dictInsert : List (String × Meta) → String → Meta → List (String × Meta)
  | [], k, v => [(k, v)]
  | p :: rest, k, v =>
      if p.1 = k then (k, v) :: rest else p :: dictInsert rest k v

/-- Association-list lookup (`meta[cid]` on the Python dict). -/
def alookup : List (String × Meta) → String → Option Meta
  | [], _ => none
  | p :: rest, k => if p.1 = k then some p.2 else alookup rest k

/-- Sum of squares of the entries: the square of the L2 norm used in
`z = z / z.norm(dim=-1, keepdim=True)`. -/
def sqnorm (v : List ℚ) : ℚ := (v.map fun x => x * x).sum

/-- Dot product, the similarity score of the flat inner-product index. -/
def dot (u v : List ℚ) : ℚ := (List.zipWith (· * ·) u v).sum

/-- Componentwise division by a scalar: `z / z.norm(...)`. -/
def vecDiv (v : List ℚ) (n : ℚ) : List ℚ := v.map fun x => x / n

/-- The embedding actually stored or queried by the core: the raw
generator output `embed p` divided by its norm `nrm (embed p)`
(lines 128-132 and 179-183 of `src/main.py`). -/
def embedVec (embed : String → List ℚ) (nrm : List ℚ → ℚ) (p : String) : List ℚ :=
  vecDiv (embed p) (nrm (embed p))

/-- One iteration of the `for _, row in df.iterrows()` loop of
`build_index_inline`: skip when the image file is missing, otherwise
append the id and the normalized vector and upsert the metadata. -/
def buildStep (embed : String → List ℚ) (nrm : List ℚ → ℚ)
    (acc : Artifacts) (r : Row) : Artifacts :=
  if r.image_exists then
    { ids := acc.ids ++ [r.id],
      vecs := acc.vecs ++ [embedVec embed nrm r.image_path],
      meta := dictInsert acc.meta r.id (mkMeta r) }
  else acc

/-- The whole accumulation loop of `build_index_inline`, starting from
`ids, vecs, meta = [], [], {}`. -/
def procRows (embed : String → List ℚ) (nrm : List ℚ → ℚ) (df : List Row) : Artifacts :=
  df.foldl (buildStep embed nrm) ⟨[], [], []⟩

/-- `build_index_inline` (src/main.py lines 106-155): read the catalog,
fail on an empty dataframe, run the loop, fail when no vector was
built, otherwise persist the three artifacts. -/
def build_index_inline (embed : String → List ℚ) (nrm : List ℚ → ℚ)
    (df : List Row) : Except BuildErr Artifacts :=
  if df.length = 0 then .error .noRows
  else
    let a := procRows embed nrm df
    if a.vecs.length = 0 then .error .noVectors else .ok a

/-- Error cases of the Vector Index `search` named by the spec. -/
inductive SearchErr where
  | dimensionMismatch
  | invalidArgument
deriving DecidableEq, Repr

/-- Ranking order of the spec: higher score first, ties by lower
original insertion position. -/
def scoreRel (a b : Nat × ℚ) : Prop :=
  b.2 < a.2 ∨ (a.2 = b.2 ∧ a.1 ≤ b.1)

instance : DecidableRel scoreRel := fun a b => by
  unfold scoreRel; infer_instance

instance : IsTotal (Nat × ℚ) scoreRel where
  total a b := by
    rcases lt_trichotomy a.2 b.2 with h | h | h
    · exact Or.inr (Or.inl h)
    · rcases Nat.le_total a.1 b.1 with h1 | h1
      · exact Or.inl (Or.inr ⟨h, h1⟩)
      · exact Or.inr (Or.inr ⟨h.symm, h1⟩)
    · exact Or.inl (Or.inl h)

instance : IsTrans (Nat × ℚ) scoreRel where
  trans a b c hab hbc := by
    rcases hab with h1 | ⟨h1, h1p⟩
    · rcases hbc with h2 | ⟨h2, _⟩
      · exact Or.inl (h2.trans h1)
      · exact Or.inl (h2 ▸ h1)
    · rcases hbc with h2 | ⟨h2, h2p⟩
      · exact Or.inl (h1 ▸ h2)
      · exact Or.inr ⟨h1.trans h2, h1p.trans h2p⟩

/-- The scored position list: position `i` paired with the dot product
of the query against the `i`-th stored vector. -/
def scored (vecs : List (List ℚ)) (q : List ℚ) : List (Nat × ℚ) :=
  (List.range vecs.length).map fun i => (i, dot q (vecs.getD i []))

/-- Modelled from the spec: the FAISS `IndexFlatIP.search` call of
`identify_first_image_inline` is external library code, so the Vector
Index `search` contract of spec §4.1 is modelled here: reject `k ≤ 0`
with `InvalidArgument` and a query whose length differs from the index
dimension (the first stored vector's length) with `DimensionMismatch`;
otherwise score every stored vector by dot product and return the
top-`k` pairs `(position, score)` by descending score, ties broken by
ascending insertion position. -/
def vsearch (vecs : List (List ℚ)) (q : List ℚ) (k : Nat) :
    Except SearchErr (List (Nat × ℚ)) :=
  if k = 0 then .error .invalidArgument
  else if q.length ≠ (vecs.headD []).length then .error .dimensionMismatch
  else .ok ((List.insertionSort scoreRel (scored vecs q)).take k)

/-- The query embedding produced inside `identify_first_image_inline`
(lines 178-183): embed the query image, divide by its norm. -/
def identify_query_vec (embed : String → List ℚ) (nrm : List ℚ → ℚ)
    (img_path : String) : List ℚ :=
  embedVec embed nrm img_path

/-- What is on disk for the loader of `identify_first_image_inline`:
the vector count recorded in the FAISS artifact, the id sequence of
`ids.npy`, and the decoded content of `id_to_meta.json` (`none` when
`json.loads` would raise because the file is not valid JSON). -/
structure StoredArtifacts where
  nvecs : Nat
  ids : List String
  metaJson : Option (List (String × Meta))
deriving DecidableEq, Repr

/-- Load failure modes relevant to the loader. -/
inductive LoadErr where
  | jsonDecodeError
deriving DecidableEq, Repr

/-- The load sequence of `identify_first_image_inline` lines 168-171:
`faiss.read_index`, `np.load(IDS_NPY)`, `json.loads(...)`. The only
failure it can raise is the JSON decode error; no comparison between
`len(ids)`, the FAISS vector count and the metadata entry count is
performed. -/
def load_artifacts_inline (s : StoredArtifacts) :
    Except LoadErr (Nat × List String × List (String × Meta)) :=
  match s.metaJson with
  | none => .error .jsonDecodeError
  | some m => .ok (s.nvecs, s.ids, m)

/-- Primitive file-system effects on the metadata path, for the crash
model of the save step. -/
inductive FsOp where
  | truncateMeta
  | writeMeta (content : String)
deriving DecidableEq, Repr

/-- The write sequence `build_index_inline` performs on
`id_to_meta.json` (lines 152-153): `open(META_JSON, "w", ...)`
truncates the destination file in place, then `json.dump` writes the
serialized mapping into it. No temporary file and no rename. -/
def save_meta_ops (serialized : String) : List FsOp :=
  [.truncateMeta, .writeMeta serialized]

/-- Replay a prefix of the file-system ops over the previous content of
`id_to_meta.json`; the result is what a reader opening the file after a
crash at that point would see (`none` = file absent). -/
def runOps (prior : Option String) : List FsOp → Option String
  | [] => prior
  | .truncateMeta :: rest => runOps (some "") rest
  | .writeMeta c :: rest => runOps (some c) rest

/-- The content of `id_to_meta.json` visible after a crash that happens
once exactly `i` of the save's file operations have completed. -/
def visibleAfterCrash (prior : Option String) (serialized : String) (i : Nat) :
    Option String :=
  runOps prior ((save_meta_ops serialized).take i)

/-- The key sequence a Python dict ends up with after one assignment:
an existing key keeps its position, a fresh key is appended. -/
def insKey (ks : List String) (k : String) : List String :=
  if k ∈ ks then ks else ks ++ [k]

/-- The last catalog row with the given id whose image exists — the row
whose metadata survives in the dict after the build loop. -/
def lastMatch (k : String) : List Row → Option Row
  | [] => none
  | r :: t =>
      match lastMatch k t with
      | some r1 => some r1
      | none => if r.image_exists = true ∧ r.id = k then some r else none

/-! ### Lemmas about the build loop -/

theorem foldl_buildStep_ids (embed : String → List ℚ) (nrm : List ℚ → ℚ) :
    ∀ (df : List Row) (acc : Artifacts),
      (df.foldl (buildStep embed nrm) acc).ids
        = acc.ids ++ (df.filter (·.image_exists)).map Row.id := by
  intro df
  induction df with
  | nil => intro acc; simp
  | cons r t ih =>
      intro acc
      cases hr : r.image_exists <;>
        simp [buildStep, hr, ih]

theorem foldl_buildStep_vecs (embed : String → List ℚ) (nrm : List ℚ → ℚ) :
    ∀ (df : List Row) (acc : Artifacts),
      (df.foldl (buildStep embed nrm) acc).vecs
        = acc.vecs ++ (df.filter (·.image_exists)).map
            (fun r => embedVec embed nrm r.image_path) := by
  intro df
  induction df with
  | nil => intro acc; simp
  | cons r t ih =>
      intro acc
      cases hr : r.image_exists <;>
        simp [buildStep, hr, ih]

/-- Rows whose image file is missing contribute nothing: the loop over
the whole catalog equals the loop over the surviving rows only. -/
theorem foldl_buildStep_filter (embed : String → List ℚ) (nrm : List ℚ → ℚ) :
    ∀ (df : List Row) (acc : Artifacts),
      df.foldl (buildStep embed nrm) acc
        = (df.filter (·.image_exists)).foldl (buildStep embed nrm) acc := by
  intro df
  induction df with
  | nil => intro acc; simp
  | cons r t ih =>
      intro acc
      cases hr : r.image_exists
      · have hs : buildStep embed nrm acc r = acc := by
          simp [buildStep, hr]
        simp [hr, hs, ih]
      · simp [hr, ih]

theorem procRows_ids (embed : String → List ℚ) (nrm : List ℚ → ℚ) (df : List Row) :
    (procRows embed nrm df).ids = (df.filter (·.image_exists)).map Row.id := by
  simpa using foldl_buildStep_ids embed nrm df ⟨[], [], []⟩

theorem procRows_vecs (embed : String → List ℚ) (nrm : List ℚ → ℚ) (df : List Row) :
    (procRows embed nrm df).vecs
      = (df.filter (·.image_exists)).map (fun r => embedVec embed nrm r.image_path) := by
  simpa using foldl_buildStep_vecs embed nrm df ⟨[], [], []⟩

/-! ### Lemmas about dict insertion -/

theorem alookup_dictInsert_self (k : String) (v : Meta) :
    ∀ m : List (String × Meta), alookup (dictInsert m k v) k = some v := by
  intro m
  induction m with
  | nil => simp [dictInsert, alookup]
  | cons p rest ih =>
      by_cases h : p.1 = k
      · simp [dictInsert, h, alookup]
      · simp [dictInsert, h, alookup, ih]

theorem alookup_dictInsert_ne (k k1 : String) (v : Meta) (hne : k1 ≠ k) :
    ∀ m : List (String × Meta), alookup (dictInsert m k v) k1 = alookup m k1 := by
  intro m
  have h1 : ¬ (k = k1) := fun hk => hne hk.symm
  induction m with
  | nil => simp [dictInsert, alookup, h1]
  | cons p rest ih =>
      simp only [dictInsert]
      by_cases h : p.1 = k
      · have h2 : ¬ (p.1 = k1) := by rw [h]; exact h1
        rw [if_pos h]
        simp [alookup, h1, h2]
      · rw [if_neg h]
        by_cases h2 : p.1 = k1
        · simp [alookup, h2]
        · simp [alookup, h2, ih]

theorem keys_dictInsert (k : String) (v : Meta) :
    ∀ m : List (String × Meta),
      (dictInsert m k v).map Prod.fst = insKey (m.map Prod.fst) k := by
  intro m
  induction m with
  | nil => simp [dictInsert, insKey]
  | cons p rest ih =>
      by_cases h : p.1 = k
      · simp [dictInsert, h, insKey]
      · have hk : k ∈ p.1 :: rest.map Prod.fst ↔ k ∈ rest.map Prod.fst := by
          constructor
          · intro hmem
            rcases List.mem_cons.mp hmem with heq | hmem1
            · exact absurd heq.symm h
            · exact hmem1
          · exact fun hmem => List.mem_cons_of_mem _ hmem
        by_cases h2 : k ∈ rest.map Prod.fst
        · simp [dictInsert, h, ih, insKey, h2, hk]
        · simp [dictInsert, h, ih, insKey, h2, hk]

theorem alookup_of_mem_keys (i : String) :
    ∀ m : List (String × Meta), i ∈ m.map Prod.fst → ∃ v, alookup m i = some v := by
  intro m
  induction m with
  | nil => intro h; simp at h
  | cons p rest ih =>
      intro h
      by_cases hp : p.1 = i
      · exact ⟨p.2, by simp [alookup, hp]⟩
      · rcases List.mem_cons.mp h with heq | hmem
        · exact absurd heq.symm hp
        · rcases ih hmem with ⟨v, hv⟩
          exact ⟨v, by simp [alookup, hp, hv]⟩

/-! ### Lemmas about the key sequence -/

theorem insKey_of_mem {ks : List String} {k : String} (h : k ∈ ks) :
    insKey ks k = ks := by
  simp [insKey, h]

theorem insKey_of_not_mem {ks : List String} {k : String} (h : k ∉ ks) :
    insKey ks k = ks ++ [k] := by
  simp [insKey, h]

theorem mem_insKey_self (ks : List String) (k : String) : k ∈ insKey ks k := by
  by_cases h : k ∈ ks
  · rw [insKey_of_mem h]; exact h
  · rw [insKey_of_not_mem h]; exact List.mem_append_right _ (by simp)

theorem mem_insKey_of_mem (ks : List String) (k x : String) (h : x ∈ ks) :
    x ∈ insKey ks k := by
  by_cases hk : k ∈ ks
  · rw [insKey_of_mem hk]; exact h
  · rw [insKey_of_not_mem hk]; exact List.mem_append_left _ h

theorem length_insKey_le (ks : List String) (k : String) :
    (insKey ks k).length ≤ ks.length + 1 := by
  by_cases h : k ∈ ks
  · rw [insKey_of_mem h]; omega
  · rw [insKey_of_not_mem h]; simp

theorem mem_foldl_insKey (x : String) :
    ∀ (l ks : List String), x ∈ l.foldl insKey ks ↔ x ∈ ks ∨ x ∈ l := by
  intro l
  induction l with
  | nil => intro ks; simp
  | cons y t ih =>
      intro ks
      rw [List.foldl_cons, ih]
      by_cases h : y ∈ ks
      · rw [insKey_of_mem h]
        constructor
        · rintro (hx | hx)
          · exact Or.inl hx
          · exact Or.inr (List.mem_cons_of_mem _ hx)
        · rintro (hx | hx)
          · exact Or.inl hx
          · rcases List.mem_cons.mp hx with rfl | hx1
            · exact Or.inl h
            · exact Or.inr hx1
      · rw [insKey_of_not_mem h]
        simp only [List.mem_append, List.mem_singleton, List.mem_cons]
        tauto

theorem length_foldl_insKey_le :
    ∀ (l ks : List String), (l.foldl insKey ks).length ≤ ks.length + l.length := by
  intro l
  induction l with
  | nil => intro ks; simp
  | cons y t ih =>
      intro ks
      rw [List.foldl_cons]
      have h1 := ih (insKey ks y)
      have h2 := length_insKey_le ks y
      simp only [List.length_cons]
      omega

theorem nodup_foldl_insKey :
    ∀ (l ks : List String), ks.Nodup → (l.foldl insKey ks).Nodup := by
  intro l
  induction l with
  | nil => intro ks h; simpa using h
  | cons y t ih =>
      intro ks h
      rw [List.foldl_cons]
      refine ih _ ?_
      by_cases hy : y ∈ ks
      · rw [insKey_of_mem hy]; exact h
      · rw [insKey_of_not_mem hy]
        simpa [List.nodup_append] using ⟨h, hy⟩

theorem length_foldl_insKey_lt_of_mem (y : String) :
    ∀ (l ks : List String), y ∈ ks → y ∈ l →
      (l.foldl insKey ks).length < ks.length + l.length := by
  intro l
  induction l with
  | nil => intro ks _ h; simp at h
  | cons x t ih =>
      intro ks hks hl
      rw [List.foldl_cons]
      rcases List.mem_cons.mp hl with rfl | hmem
      · rw [insKey_of_mem hks]
        have := length_foldl_insKey_le t ks
        simp only [List.length_cons]
        omega
      · have hins : y ∈ insKey ks x := mem_insKey_of_mem ks x y hks
        have hlen := length_insKey_le ks x
        have := ih (insKey ks x) hins hmem
        simp only [List.length_cons]
        omega

theorem length_foldl_insKey_lt_of_not_nodup :
    ∀ (l ks : List String), ¬ l.Nodup →
      (l.foldl insKey ks).length < ks.length + l.length := by
  intro l
  induction l with
  | nil => intro ks h; exact absurd List.nodup_nil h
  | cons x t ih =>
      intro ks h
      rw [List.foldl_cons]
      have hlen := length_insKey_le ks x
      by_cases hx : x ∈ t
      · have := length_foldl_insKey_lt_of_mem x t (insKey ks x)
          (mem_insKey_self ks x) hx
        simp only [List.length_cons]
        omega
      · have ht : ¬ t.Nodup := by
          intro hnd
          exact h (List.nodup_cons.mpr ⟨hx, hnd⟩)
        have := ih (insKey ks x) ht
        simp only [List.length_cons]
        omega

theorem foldl_insKey_of_nodup :
    ∀ (l ks : List String), l.Nodup → (∀ x ∈ l, x ∉ ks) →
      l.foldl insKey ks = ks ++ l := by
  intro l
  induction l with
  | nil => intro ks _ _; simp
  | cons x t ih =>
      intro ks hnd hdisj
      rw [List.foldl_cons]
      have hx : x ∉ ks := hdisj x (List.mem_cons_self x t)
      rw [insKey_of_not_mem hx, ih (ks ++ [x]) (List.nodup_cons.mp hnd).2]
      · simp
      · intro y hy
        have hyk : y ∉ ks := hdisj y (List.mem_cons_of_mem _ hy)
        have hyx : y ≠ x := by
          intro rfl1
          exact (List.nodup_cons.mp hnd).1 (rfl1 ▸ hy)
        simp [hyk, hyx]

/-! ### Lemmas about the metadata dict produced by the build loop -/

theorem foldl_buildStep_keys (embed : String → List ℚ) (nrm : List ℚ → ℚ) :
    ∀ (df : List Row) (acc : Artifacts),
      (df.foldl (buildStep embed nrm) acc).meta.map Prod.fst
        = ((df.filter (·.image_exists)).map Row.id).foldl insKey
            (acc.meta.map Prod.fst) := by
  intro df
  induction df with
  | nil => intro acc; simp
  | cons r t ih =>
      intro acc
      cases hr : r.image_exists
      · have hs : buildStep embed nrm acc r = acc := by simp [buildStep, hr]
        simp [hr, hs, ih]
      · have hs : (buildStep embed nrm acc r).meta
            = dictInsert acc.meta r.id (mkMeta r) := by simp [buildStep, hr]
        rw [List.foldl_cons, ih, hs, keys_dictInsert]
        simp [hr]

theorem procRows_keys (embed : String → List ℚ) (nrm : List ℚ → ℚ) (df : List Row) :
    (procRows embed nrm df).meta.map Prod.fst
      = ((df.filter (·.image_exists)).map Row.id).foldl insKey [] := by
  simpa using foldl_buildStep_keys embed nrm df ⟨[], [], []⟩

theorem foldl_buildStep_alookup (embed : String → List ℚ) (nrm : List ℚ → ℚ)
    (k : String) :
    ∀ (df : List Row) (acc : Artifacts),
      alookup (df.foldl (buildStep embed nrm) acc).meta k
        = (lastMatch k df).elim (alookup acc.meta k) (fun r => some (mkMeta r)) := by
  intro df
  induction df with
  | nil => intro acc; simp [lastMatch]
  | cons r t ih =>
      intro acc
      rw [List.foldl_cons, ih]
      cases hlm : lastMatch k t with
      | some r1 => simp [lastMatch, hlm]
      | none =>
          simp only [lastMatch, hlm, Option.elim]
          cases hr : r.image_exists
          · have hs : buildStep embed nrm acc r = acc := by simp [buildStep, hr]
            simp [hs]
          · have hs : (buildStep embed nrm acc r).meta
                = dictInsert acc.meta r.id (mkMeta r) := by simp [buildStep, hr]
            by_cases hid : r.id = k
            · subst hid
              simp [hs, alookup_dictInsert_self]
            · rw [hs, alookup_dictInsert_ne r.id k (mkMeta r) (fun h => hid h.symm)]
              simp [hid]

/-- The metadata value recorded for a key after the whole build loop is
exactly the metadata of the last surviving catalog row with that id. -/
theorem procRows_alookup (embed : String → List ℚ) (nrm : List ℚ → ℚ)
    (k : String) (df : List Row) :
    alookup (procRows embed nrm df).meta k = (lastMatch k df).map mkMeta := by
  have h := foldl_buildStep_alookup embed nrm k df ⟨[], [], []⟩
  rw [procRows, h]
  cases lastMatch k df <;> simp [alookup]

/-! ### Vector algebra -/

theorem sqnorm_nonneg (v : List ℚ) : 0 ≤ sqnorm v := by
  induction v with
  | nil => simp [sqnorm]
  | cons x t ih =>
      have hx : 0 ≤ x * x := mul_self_nonneg x
      simp only [sqnorm, List.map_cons, List.sum_cons]
      have : (0:ℚ) ≤ (t.map fun y => y * y).sum := ih
      linarith

theorem sqnorm_vecDiv (v : List ℚ) (n : ℚ) :
    sqnorm (vecDiv v n) = sqnorm v / (n * n) := by
  induction v with
  | nil => simp [sqnorm, vecDiv]
  | cons x t ih =>
      simp only [vecDiv, sqnorm, List.map_cons, List.sum_cons] at *
      rw [ih, div_mul_div_comm, add_div]

/-- The core's normalization divides by a scalar whose square is the
sum of squares; the result has squared norm 1. -/
theorem sqnorm_vecDiv_eq_one (v : List ℚ) (n : ℚ) (hn : n * n = sqnorm v)
    (hnz : n ≠ 0) : sqnorm (vecDiv v n) = 1 := by
  rw [sqnorm_vecDiv, ← hn]
  exact div_self (mul_ne_zero hnz hnz)

theorem dot_self (v : List ℚ) : dot v v = sqnorm v := by
  induction v with
  | nil => rfl
  | cons x t ih =>
      simp only [dot, sqnorm, List.zipWith_cons_cons, List.map_cons,
        List.sum_cons] at ih ⊢
      rw [ih]

theorem sqnorm_zipWith_sub (u : List ℚ) :
    ∀ v : List ℚ, u.length = v.length →
      sqnorm (List.zipWith (· - ·) u v) = sqnorm u + sqnorm v - 2 * dot u v := by
  induction u with
  | nil =>
      intro v hv
      have : v = [] := List.eq_nil_of_length_eq_zero hv.symm
      subst this
      simp [sqnorm, dot]
  | cons x t ih =>
      intro v hv
      cases v with
      | nil => simp at hv
      | cons y s =>
          have hl : t.length = s.length := by simpa using hv
          have ihs := ih s hl
          simp only [List.zipWith_cons_cons, sqnorm, dot, List.map_cons,
            List.sum_cons] at ihs ⊢
          rw [ihs]
          ring

theorem dot_le_one (u v : List ℚ) (hl : u.length = v.length)
    (hu : sqnorm u = 1) (hv : sqnorm v = 1) : dot u v ≤ 1 := by
  have h0 : 0 ≤ sqnorm (List.zipWith (· - ·) u v) := sqnorm_nonneg _
  rw [sqnorm_zipWith_sub u v hl, hu, hv] at h0
  linarith

theorem eq_of_sqnorm_zipWith_sub_eq_zero (u : List ℚ) :
    ∀ v : List ℚ, u.length = v.length →
      sqnorm (List.zipWith (· - ·) u v) = 0 → u = v := by
  induction u with
  | nil =>
      intro v hv _
      exact (List.eq_nil_of_length_eq_zero hv.symm).symm
  | cons x t ih =>
      intro v hv h0
      cases v with
      | nil => simp at hv
      | cons y s =>
          have hl : t.length = s.length := by simpa using hv
          simp only [List.zipWith_cons_cons, sqnorm, List.map_cons,
            List.sum_cons] at h0
          have hrest : 0 ≤ sqnorm (List.zipWith (· - ·) t s) := sqnorm_nonneg _
          have hhead : 0 ≤ (x - y) * (x - y) := mul_self_nonneg _
          simp only [sqnorm] at hrest
          have h1 : (x - y) * (x - y) = 0 := by linarith
          have h2 : sqnorm (List.zipWith (· - ·) t s) = 0 := by
            simp only [sqnorm]; linarith
          have hxy : x = y := sub_eq_zero.mp (mul_self_eq_zero.mp h1)
          rw [hxy, ih s hl h2]

theorem eq_of_dot_eq_one (u v : List ℚ) (hl : u.length = v.length)
    (hu : sqnorm u = 1) (hv : sqnorm v = 1) (hd : dot u v = 1) : u = v := by
  refine eq_of_sqnorm_zipWith_sub_eq_zero u v hl ?_
  rw [sqnorm_zipWith_sub u v hl, hu, hv, hd]
  ring

/-! ### Lemmas about the ranking -/

theorem length_rank (vecs : List (List ℚ)) (q : List ℚ) :
    (List.insertionSort scoreRel (scored vecs q)).length = vecs.length := by
  rw [(List.perm_insertionSort scoreRel (scored vecs q)).length_eq]
  simp [scored]

theorem mem_rank_iff (vecs : List (List ℚ)) (q : List ℚ) (x : Nat × ℚ) :
    x ∈ List.insertionSort scoreRel (scored vecs q) ↔ x ∈ scored vecs q :=
  (List.perm_insertionSort scoreRel (scored vecs q)).mem_iff

theorem mem_scored (vecs : List (List ℚ)) (q : List ℚ) (x : Nat × ℚ) :
    x ∈ scored vecs q ↔
      ∃ i, i < vecs.length ∧ x = (i, dot q (vecs.getD i [])) := by
  simp only [scored, List.mem_map, List.mem_range]
  constructor
  · rintro ⟨i, hi, rfl⟩; exact ⟨i, hi, rfl⟩
  · rintro ⟨i, hi, rfl⟩; exact ⟨i, hi, rfl⟩

/-- A small concrete index (two orthogonal unit vectors) used to
instantiate the search theorems. -/
def exVecs : List (List ℚ) := [[1, 0], [0, 1]]

/-- A concrete query vector equal to the first stored vector. -/
def exQuery : List ℚ := [1, 0]

/-! ### Claims about the search path -/

/-- C1: for every built index and every query, the `(position, score)`
sequence returned by `search` is sorted by non-increasing score, and
among equal scores the lower original insertion position comes first. -/
theorem C1_search_sorted_tiebreak (vecs : List (List ℚ)) (q : List ℚ) (k : Nat)
    (res : List (Nat × ℚ)) (h : vsearch vecs q k = .ok res) :
    res.Pairwise (fun a b => b.2 ≤ a.2 ∧ (a.2 = b.2 → a.1 ≤ b.1)) := by
  unfold vsearch at h
  by_cases hk : k = 0
  · rw [if_pos hk] at h; cases h
  · rw [if_neg hk] at h
    by_cases hd : q.length ≠ (vecs.headD []).length
    · rw [if_pos hd] at h; cases h
    · rw [if_neg hd] at h
      have hres : res = (List.insertionSort scoreRel (scored vecs q)).take k := by
        cases h; rfl
      subst hres
      have hs : (List.insertionSort scoreRel (scored vecs q)).Pairwise scoreRel :=
        List.sorted_insertionSort scoreRel (scored vecs q)
      have hp : ((List.insertionSort scoreRel (scored vecs q)).take k).Pairwise
          scoreRel :=
        List.Pairwise.sublist (List.take_sublist k _) hs
      refine hp.imp ?_
      intro a b hab
      rcases hab with hlt | ⟨heq, hpos⟩
      · exact ⟨le_of_lt hlt, fun he => absurd (he ▸ hlt) (lt_irrefl _)⟩
      · exact ⟨le_of_eq heq.symm, fun _ => hpos⟩

/-- Witness for C1 at a concrete index and query. -/
theorem C1_search_sorted_tiebreak_witness :
    vsearch exVecs exQuery 2 = .ok [(0, 1), (1, 0)] ∧
      ([((0:Nat), (1:ℚ)), (1, 0)]).Pairwise
        (fun a b => b.2 ≤ a.2 ∧ (a.2 = b.2 → a.1 ≤ b.1)) := by
  have h : vsearch exVecs exQuery 2 = .ok [(0, 1), (1, 0)] := by
    norm_num [vsearch, scored, dot, exVecs, exQuery, scoreRel,
      List.insertionSort, List.orderedInsert]
  exact ⟨h, C1_search_sorted_tiebreak exVecs exQuery 2 _ h⟩

/-- C2: `search` over an index of `N` vectors with positive `k` returns
exactly `min k N` results — clamped to `N`, not an error, when `k` is
larger than `N`. -/
theorem C2_search_result_count (vecs : List (List ℚ)) (q : List ℚ) (k : Nat)
    (hk : 0 < k) (hd : q.length = (vecs.headD []).length) :
    ∃ res, vsearch vecs q k = .ok res ∧ res.length = min k vecs.length := by
  refine ⟨(List.insertionSort scoreRel (scored vecs q)).take k, ?_, ?_⟩
  · unfold vsearch
    rw [if_neg (Nat.pos_iff_ne_zero.mp hk), if_neg (by simpa using hd)]
  · rw [List.length_take, length_rank]

/-- Witness for C2: `k = 3` over an index of 2 vectors yields 2
results. -/
theorem C2_search_result_count_witness :
    0 < 3 ∧ exQuery.length = (exVecs.headD []).length ∧
      ∃ res, vsearch exVecs exQuery 3 = .ok res ∧ res.length = min 3 exVecs.length := by
  refine ⟨by decide, by decide, ?_⟩
  exact C2_search_result_count exVecs exQuery 3 (by decide) (by decide)

/-- C3: searching a non-empty index of unit vectors with a stored
vector `v` and `k ≥ 1` puts a position holding `v` at rank 1 with
score exactly 1. -/
theorem C3_exact_self_match (vecs : List (List ℚ)) (v : List ℚ) (k : Nat)
    (hk : 0 < k)
    (hunit : ∀ w ∈ vecs, sqnorm w = 1 ∧ w.length = v.length)
    (hv : v ∈ vecs) :
    ∃ p res, vsearch vecs v k = .ok res ∧ res.head? = some (p, (1:ℚ)) ∧
      vecs.getD p [] = v := by
  have hne : vecs ≠ [] := List.ne_nil_of_mem hv
  have hhead : vecs.headD [] ∈ vecs := by
    cases vecs with
    | nil => exact absurd rfl hne
    | cons w t => exact List.mem_cons_self _ _
  have hdim : v.length = (vecs.headD []).length := ((hunit _ hhead).2).symm
  have hlen : (List.insertionSort scoreRel (scored vecs v)).length = vecs.length :=
    length_rank vecs v
  have hpos : 0 < vecs.length := List.length_pos.mpr hne
  have hok : vsearch vecs v k
      = .ok ((List.insertionSort scoreRel (scored vecs v)).take k) := by
    unfold vsearch
    rw [if_neg (Nat.pos_iff_ne_zero.mp hk), if_neg (by simpa using hdim)]
  have hsorted : (List.insertionSort scoreRel (scored vecs v)).Sorted scoreRel :=
    List.sorted_insertionSort scoreRel (scored vecs v)
  cases hLs : List.insertionSort scoreRel (scored vecs v) with
  | nil => rw [hLs] at hlen; simp at hlen; omega
  | cons h t =>
      obtain ⟨p0, hp0, hget⟩ := List.mem_iff_getElem.mp hv
      have hsv : (p0, (1:ℚ)) ∈ scored vecs v := by
        rw [mem_scored]
        refine ⟨p0, hp0, ?_⟩
        have hgd : vecs.getD p0 [] = v := by
          rw [List.getD_eq_getElem _ _ hp0, hget]
        rw [hgd, dot_self, (hunit v hv).1]
      have hmemL : (p0, (1:ℚ)) ∈ h :: t := by
        rw [← hLs]
        exact (mem_rank_iff vecs v _).mpr hsv
      have hhmem : h ∈ scored vecs v := by
        rw [← mem_rank_iff vecs v h, hLs]
        exact List.mem_cons_self _ _
      obtain ⟨i, hi, hie⟩ := (mem_scored vecs v h).mp hhmem
      have hwmem : vecs.getD i [] ∈ vecs := by
        rw [List.getD_eq_getElem _ _ hi]
        exact List.getElem_mem _
      have hle : dot v (vecs.getD i []) ≤ 1 :=
        dot_le_one v _ ((hunit _ hwmem).2).symm (hunit v hv).1 (hunit _ hwmem).1
      rw [hLs] at hsorted
      have hscore1 : h.2 = 1 := by
        rcases List.mem_cons.mp hmemL with heq | hmem
        · rw [← heq]
        · have hrel : scoreRel h (p0, 1) :=
            (List.sorted_cons.mp hsorted).1 _ hmem
          have hub : h.2 ≤ 1 := by rw [hie]; exact hle
          rcases hrel with hgt | ⟨heq, _⟩
          · have h1 : (1:ℚ) < h.2 := hgt
            linarith
          · exact heq
      have hdot1 : dot v (vecs.getD i []) = 1 := by
        have : h.2 = dot v (vecs.getD i []) := by rw [hie]
        rw [← this, hscore1]
      have hveq : vecs.getD i [] = v :=
        (eq_of_dot_eq_one v _ ((hunit _ hwmem).2).symm (hunit v hv).1
          (hunit _ hwmem).1 hdot1).symm
      have hhe : h = (i, (1:ℚ)) := by
        rw [hie]
        exact Prod.ext rfl hdot1
      refine ⟨i, _, hok, ?_, hveq⟩
      rw [hLs]
      cases k with
      | zero => exact absurd hk (by decide)
      | succ k1 =>
          rw [List.take_succ_cons, List.head?_cons, hhe]

/-- Witness for C3: the first stored vector queried against the
two-vector index comes back at rank 1 with score 1. -/
theorem C3_exact_self_match_witness :
    0 < 1 ∧ (∀ w ∈ exVecs, sqnorm w = 1 ∧ w.length = exQuery.length) ∧
      exQuery ∈ exVecs ∧
      ∃ p res, vsearch exVecs exQuery 1 = .ok res ∧
        res.head? = some (p, (1:ℚ)) ∧ exVecs.getD p [] = exQuery := by
  have hunit : ∀ w ∈ exVecs, sqnorm w = 1 ∧ w.length = exQuery.length := by
    intro w hw
    have hw2 : w = [1, 0] ∨ w = [0, 1] := by simpa [exVecs] using hw
    rcases hw2 with rfl | rfl <;> constructor <;> norm_num [sqnorm, exQuery]
  have hv : exQuery ∈ exVecs := by simp [exVecs, exQuery]
  exact ⟨by decide, hunit, hv,
    C3_exact_self_match exVecs exQuery 1 (by decide) hunit hv⟩

/-! ### Concrete build inputs used by several witnesses -/

/-- A constant embedding generator returning a non-normalized vector. -/
def exEmbed : String → List ℚ := fun _ => [3, 4]

/-- The L2 norm of that vector (5² = 3² + 4²). -/
def exNrm : List ℚ → ℚ := fun _ => 5

/-- One concrete catalog row with an existing image. -/
def exRow : Row :=
  { id := "sv3-86", name := "Charizard ex", setc := "sv3", number := "86",
    hp := "", image_path := "images/sv3/86.jpg", image_exists := true }

/-- The artifacts produced by building the one-row catalog. -/
def exArts : Artifacts :=
  { ids := ["sv3-86"], vecs := [[3/5, 4/5]], meta := [("sv3-86", mkMeta exRow)] }

theorem exBuild_eq : build_index_inline exEmbed exNrm [exRow] = .ok exArts := by
  norm_num [build_index_inline, procRows, buildStep, embedVec, vecDiv,
    exEmbed, exNrm, exRow, exArts, dictInsert]

/-- Extracting the accumulated artifacts from a successful build. -/
theorem build_ok_eq (embed : String → List ℚ) (nrm : List ℚ → ℚ)
    (df : List Row) (a : Artifacts)
    (h : build_index_inline embed nrm df = .ok a) :
    a = procRows embed nrm df := by
  unfold build_index_inline at h
  by_cases h0 : df.length = 0
  · rw [if_pos h0] at h; cases h
  · rw [if_neg h0] at h
    by_cases h1 : (procRows embed nrm df).vecs.length = 0
    · rw [if_pos h1] at h; cases h
    · rw [if_neg h1] at h; cases h; rfl

/-! ### Claims about the build -/

/-- C5: a catalog record whose image path does not exist is skipped
without failing the build (the loop over the whole catalog equals the
loop over the surviving records), and the build fails — via one of its
two `assert`s, which the spec groups under `EmptyCatalog` — exactly
when no record produced a usable embedding. -/
theorem C5_skip_missing_and_empty_catalog (embed : String → List ℚ)
    (nrm : List ℚ → ℚ) (df : List Row) :
    ((build_index_inline embed nrm df).isOk = true ↔
        ∃ r ∈ df, r.image_exists = true) ∧
      df.foldl (buildStep embed nrm) ⟨[], [], []⟩
        = (df.filter (·.image_exists)).foldl (buildStep embed nrm) ⟨[], [], []⟩ := by
  refine ⟨?_, foldl_buildStep_filter embed nrm df ⟨[], [], []⟩⟩
  have hv : (procRows embed nrm df).vecs.length
      = (df.filter (·.image_exists)).length := by
    rw [procRows_vecs]; simp
  by_cases hex : ∃ r ∈ df, r.image_exists = true
  · obtain ⟨r, hr, hrex⟩ := hex
    have hdf : ¬ df.length = 0 := by
      intro h0
      rw [List.eq_nil_of_length_eq_zero h0] at hr
      simp at hr
    have hfil : ¬ (df.filter (·.image_exists)).length = 0 := by
      intro h0
      have hmem : r ∈ df.filter (·.image_exists) :=
        List.mem_filter.mpr ⟨hr, hrex⟩
      rw [List.eq_nil_of_length_eq_zero h0] at hmem
      simp at hmem
    unfold build_index_inline
    rw [if_neg hdf, if_neg (by rw [hv]; exact hfil)]
    exact ⟨fun _ => ⟨r, hr, hrex⟩, fun _ => rfl⟩
  · have hfil : df.filter (·.image_exists) = [] := by
      rw [List.filter_eq_nil_iff]
      intro a ha hpa
      exact hex ⟨a, ha, by simpa using hpa⟩
    unfold build_index_inline
    by_cases hdf : df.length = 0
    · rw [if_pos hdf]
      exact iff_of_false (by simp [Except.isOk, Except.toBool]) hex
    · rw [if_neg hdf, if_pos (by rw [hv, hfil]; rfl)]
      exact iff_of_false (by simp [Except.isOk, Except.toBool]) hex

/-- C9: the build is a deterministic function of the catalog and the
embedding generator — two runs over the same inputs produce identical
persisted artifacts (id sequence, vector matrix and metadata mapping).
The embedding is pure because every step of `build_index_inline` is:
rows are processed in catalog order and the generator is a function. -/
theorem C9_build_idempotent (embed : String → List ℚ) (nrm : List ℚ → ℚ)
    (df : List Row) (a1 a2 : Artifacts)
    (h1 : build_index_inline embed nrm df = .ok a1)
    (h2 : build_index_inline embed nrm df = .ok a2) :
    a1.ids = a2.ids ∧ a1.vecs = a2.vecs ∧ a1.meta = a2.meta := by
  rw [h1] at h2
  injection h2 with h
  subst h
  exact ⟨rfl, rfl, rfl⟩

/-- Witness for C9 at the concrete one-row catalog. -/
theorem C9_build_idempotent_witness :
    build_index_inline exEmbed exNrm [exRow] = .ok exArts ∧
      exArts.ids = exArts.ids ∧ exArts.vecs = exArts.vecs ∧
      exArts.meta = exArts.meta :=
  ⟨exBuild_eq, C9_build_idempotent exEmbed exNrm [exRow] exArts exArts
    exBuild_eq exBuild_eq⟩

/-- C8: the core normalizes every embedding it uses — provided the
norm scalar the code divides by really is the L2 norm of the generated
vector and is nonzero, every vector stored by the build and the query
vector produced during identify have unit (squared) norm, whatever
non-normalized vectors the generator returns. -/
theorem C8_core_normalizes (embed : String → List ℚ) (nrm : List ℚ → ℚ)
    (hn : ∀ p : String,
      nrm (embed p) * nrm (embed p) = sqnorm (embed p) ∧ nrm (embed p) ≠ 0)
    (df : List Row) (a : Artifacts)
    (h : build_index_inline embed nrm df = .ok a) :
    (∀ v ∈ a.vecs, sqnorm v = 1) ∧
      ∀ img : String, sqnorm (identify_query_vec embed nrm img) = 1 := by
  constructor
  · intro v hv
    rw [build_ok_eq embed nrm df a h, procRows_vecs] at hv
    obtain ⟨r, _, rfl⟩ := List.mem_map.mp hv
    exact sqnorm_vecDiv_eq_one _ _ (hn r.image_path).1 (hn r.image_path).2
  · intro img
    exact sqnorm_vecDiv_eq_one _ _ (hn img).1 (hn img).2

/-- Witness for C8: generator output `[3,4]` with norm 5 is stored and
queried as the unit vector `[3/5, 4/5]`. -/
theorem C8_core_normalizes_witness :
    (∀ p : String, exNrm (exEmbed p) * exNrm (exEmbed p) = sqnorm (exEmbed p) ∧
        exNrm (exEmbed p) ≠ 0) ∧
      build_index_inline exEmbed exNrm [exRow] = .ok exArts ∧
      ((∀ v ∈ exArts.vecs, sqnorm v = 1) ∧
        ∀ img : String, sqnorm (identify_query_vec exEmbed exNrm img) = 1) := by
  have hn : ∀ p : String, exNrm (exEmbed p) * exNrm (exEmbed p) = sqnorm (exEmbed p) ∧
      exNrm (exEmbed p) ≠ 0 := by
    intro p
    constructor <;> norm_num [exNrm, exEmbed, sqnorm]
  exact ⟨hn, exBuild_eq,
    C8_core_normalizes exEmbed exNrm hn [exRow] exArts exBuild_eq⟩

/-! ### Duplicate-id catalogs (C4 and C10) -/

/-- First of two catalog rows sharing the id `dup-1`. -/
def dupRowA : Row :=
  { id := "dup-1", name := "First", setc := "sv3", number := "1",
    hp := "", image_path := "a.jpg", image_exists := true }

/-- Second catalog row with the same id `dup-1`. -/
def dupRowB : Row :=
  { id := "dup-1", name := "Second", setc := "sv3", number := "2",
    hp := "", image_path := "b.jpg", image_exists := true }

/-- A catalog whose two rows share one card id. -/
def dupCat : List Row := [dupRowA, dupRowB]

/-- The artifacts of building the duplicate catalog: two id entries and
two vectors, but a single metadata entry whose value comes from the
second row. -/
def dupArts : Artifacts :=
  { ids := ["dup-1", "dup-1"], vecs := [[3/5, 4/5], [3/5, 4/5]],
    meta := [("dup-1", mkMeta dupRowB)] }

theorem dupBuild_eq : build_index_inline exEmbed exNrm dupCat = .ok dupArts := by
  norm_num [build_index_inline, procRows, buildStep, embedVec, vecDiv,
    exEmbed, exNrm, dupCat, dupRowA, dupRowB, dupArts, dictInsert]

/-- Distinct list indices holding equal values refute `Nodup`. -/
theorem not_nodup_of_get_eq {l : List String} {i j : Nat} (hij : i < j)
    (hj : j < l.length)
    (he : l.get ⟨i, Nat.lt_trans hij hj⟩ = l.get ⟨j, hj⟩) : ¬ l.Nodup := by
  intro hnd
  have h1 := (List.nodup_iff_injective_get.mp hnd) he
  have h2 : i = j := congrArg Fin.val h1
  omega

/-- C4 counterexample: a successful build over a catalog with a
duplicated id persists an id sequence of length 2 but a metadata
mapping with a single entry, so the claimed count equality fails. -/
theorem C4_counterexample :
    build_index_inline exEmbed exNrm dupCat = .ok dupArts ∧
      dupArts.ids.length = dupArts.vecs.length ∧
      ¬ dupArts.ids.length = dupArts.meta.length := by
  refine ⟨dupBuild_eq, by decide, by decide⟩

/-- C4 (amended): after every successful build over a catalog whose
rows carry pairwise-distinct ids — which the catalog synchronizer
guarantees — the id sequence, the vector matrix and the metadata
mapping have equal lengths, and every id in the id sequence resolves to
a metadata record. -/
theorem C4_artifact_counts (embed : String → List ℚ) (nrm : List ℚ → ℚ)
    (df : List Row) (a : Artifacts)
    (h : build_index_inline embed nrm df = .ok a)
    (hnd : (df.map Row.id).Nodup) :
    a.ids.length = a.vecs.length ∧ a.meta.length = a.ids.length ∧
      ∀ i ∈ a.ids, ∃ m, alookup a.meta i = some m := by
  have ha := build_ok_eq embed nrm df a h
  subst ha
  have hids := procRows_ids embed nrm df
  have hvecs := procRows_vecs embed nrm df
  have hkeys := procRows_keys embed nrm df
  have hsub : List.Sublist ((df.filter (·.image_exists)).map Row.id)
      (df.map Row.id) :=
    (List.filter_sublist df).map Row.id
  have hndf : ((df.filter (·.image_exists)).map Row.id).Nodup :=
    List.Pairwise.sublist hsub hnd
  have hkeq : (procRows embed nrm df).meta.map Prod.fst
      = (df.filter (·.image_exists)).map Row.id := by
    rw [hkeys, foldl_insKey_of_nodup _ [] hndf (by simp)]
    simp
  refine ⟨?_, ?_, ?_⟩
  · rw [hids, hvecs]; simp
  · have hml : (procRows embed nrm df).meta.length
        = ((procRows embed nrm df).meta.map Prod.fst).length := by simp
    rw [hml, hkeq, hids]
  · intro i hi
    apply alookup_of_mem_keys
    rw [hkeq, ← hids]
    exact hi

/-- Witness for C4 (amended) at the one-row catalog. -/
theorem C4_artifact_counts_witness :
    build_index_inline exEmbed exNrm [exRow] = .ok exArts ∧
      (([exRow]).map Row.id).Nodup ∧
      (exArts.ids.length = exArts.vecs.length ∧
        exArts.meta.length = exArts.ids.length ∧
        ∀ i ∈ exArts.ids, ∃ m, alookup exArts.meta i = some m) := by
  have hnd : (([exRow]).map Row.id).Nodup := by simp
  exact ⟨exBuild_eq, hnd,
    C4_artifact_counts exEmbed exNrm [exRow] exArts exBuild_eq hnd⟩

/-- C10: a catalog with the same id in two different rows, both with
existing images, builds without error, appends one vector and one id
entry per row, keeps a single metadata entry for the duplicated id
holding the last row's metadata, and so ends with an id sequence
strictly longer than the metadata mapping. -/
theorem C10_duplicate_id_rows (embed : String → List ℚ) (nrm : List ℚ → ℚ)
    (df : List Row) (i j : Nat) (hij : i < j) (hj : j < df.length)
    (hex : ∀ r ∈ df, r.image_exists = true)
    (hid : (df.get ⟨i, Nat.lt_trans hij hj⟩).id = (df.get ⟨j, hj⟩).id) :
    ∃ a, build_index_inline embed nrm df = .ok a ∧
      a.ids.length = df.length ∧ a.vecs.length = df.length ∧
      a.meta.length < a.ids.length ∧
      (a.meta.map Prod.fst).Nodup ∧
      alookup a.meta (df.get ⟨j, hj⟩).id
        = (lastMatch (df.get ⟨j, hj⟩).id df).map mkMeta := by
  have hfe : df.filter (·.image_exists) = df := by
    rw [List.filter_eq_self]
    intro r hr
    simpa using hex r hr
  have hids : (procRows embed nrm df).ids = df.map Row.id := by
    rw [procRows_ids, hfe]
  have hvecs : (procRows embed nrm df).vecs.length = df.length := by
    rw [procRows_vecs, hfe]; simp
  have hkeys : (procRows embed nrm df).meta.map Prod.fst
      = (df.map Row.id).foldl insKey [] := by
    rw [procRows_keys, hfe]
  have hdf : ¬ df.length = 0 := by omega
  have hok : build_index_inline embed nrm df = .ok (procRows embed nrm df) := by
    unfold build_index_inline
    rw [if_neg hdf, if_neg (by rw [hvecs]; exact hdf)]
  have hgm : ∀ (n : Nat) (hn : n < df.length),
      (df.map Row.id).get ⟨n, by simpa using hn⟩ = (df.get ⟨n, hn⟩).id := by
    intro n hn
    simp
  have hdup : ¬ (df.map Row.id).Nodup := by
    refine not_nodup_of_get_eq hij (by simpa using hj) ?_
    rw [hgm i (Nat.lt_trans hij hj), hgm j hj]
    exact hid
  have hmlen : (procRows embed nrm df).meta.length
      = ((procRows embed nrm df).meta.map Prod.fst).length := by simp
  refine ⟨procRows embed nrm df, hok, ?_, hvecs, ?_, ?_, ?_⟩
  · rw [hids]; simp
  · rw [hmlen, hkeys, hids]
    have := length_foldl_insKey_lt_of_not_nodup (df.map Row.id) [] hdup
    simpa using this
  · rw [hkeys]
    exact nodup_foldl_insKey _ [] List.nodup_nil
  · exact procRows_alookup embed nrm _ df

/-- Witness for C10 at the concrete duplicate catalog. -/
theorem C10_duplicate_id_rows_witness :
    (0 < 1 ∧ 1 < dupCat.length ∧ (∀ r ∈ dupCat, r.image_exists = true) ∧
        (dupCat.get ⟨0, by decide⟩).id = (dupCat.get ⟨1, by decide⟩).id) ∧
      ∃ a, build_index_inline exEmbed exNrm dupCat = .ok a ∧
        a.ids.length = dupCat.length ∧ a.vecs.length = dupCat.length ∧
        a.meta.length < a.ids.length ∧
        (a.meta.map Prod.fst).Nodup ∧
        alookup a.meta (dupCat.get ⟨1, by decide⟩).id
          = (lastMatch (dupCat.get ⟨1, by decide⟩).id dupCat).map mkMeta := by
  refine ⟨⟨by decide, by decide, by decide, by decide⟩, ?_⟩
  exact C10_duplicate_id_rows exEmbed exNrm dupCat 0 1 (by decide) (by decide)
    (by decide) (by decide)

/-! ### Claims about persistence -/

/-- C6 (code bug): the save of `id_to_meta.json` is not atomic. The
code opens the destination file itself with mode `w` (truncating it)
and then writes; a crash after the truncation but before the write
leaves an empty file visible — neither the prior store contents nor the
new mapping. The spec's write-to-temp-then-rename is absent from the
code. -/
theorem C6_save_not_atomic :
    visibleAfterCrash (some "OLDMAPPING") "NEWMAPPING" 1 = some "" ∧
      ¬ visibleAfterCrash (some "OLDMAPPING") "NEWMAPPING" 1 = some "OLDMAPPING" ∧
      ¬ visibleAfterCrash (some "OLDMAPPING") "NEWMAPPING" 1 = some "NEWMAPPING" := by
  refine ⟨rfl, by decide, by decide⟩

/-- A concrete metadata record used in the load counterexample. -/
def exMeta : Meta :=
  { name := "First", setc := "sv3", number := "1", hp := none,
    image_path := "a.jpg" }

/-- A stored-artifact state in which one id was removed from the
metadata mapping while the vector artifact and id sequence still hold
two entries. -/
def corruptedStore : StoredArtifacts :=
  { nvecs := 2, ids := ["dup-1", "sv3-86"], metaJson := some [("dup-1", exMeta)] }

/-- C7 (code bug): the loader only fails when the metadata JSON is
undecodable; it performs no cross-artifact consistency check, so the
hand-corrupted store (one id removed from the metadata while the id
sequence and the vector artifact still count two) loads successfully
instead of failing at load time. -/
theorem C7_load_without_consistency_check :
    (load_artifacts_inline corruptedStore).isOk = true ∧
      corruptedStore.ids.length = corruptedStore.nvecs ∧
      (corruptedStore.metaJson.getD []).length + 1 = corruptedStore.ids.length ∧
      load_artifacts_inline { nvecs := 2, ids := ["dup-1", "sv3-86"], metaJson := none }
        = .error .jsonDecodeError := by
  refine ⟨rfl, by decide, by decide, rfl⟩

end TCG
